import Mathlib

/-!
Verification of `myrientdl.py`.

A shallow embedding of the core of `myrientdl.py` (matcher, report sink,
retrying fetcher, download coordinator), with theorems checking the
natural-language specification against the code.

Strings are embedded as `List Char`.  External collaborators
(`rapidfuzz.fuzz.partial_ratio`, `urllib.parse.unquote`) are abstracted as
function parameters; Python builtins (`list.sort`, `str.strip`, slicing,
`os.path.join`, the line iteration of a text file) are modelled by their
documented semantics.
-/

namespace MyrientDL

/-- A hyperlink as produced by the (out-of-scope) extractor:
`{'href': ..., 'text': ...}`. -/
structure Link where
  href : List Char
  text : List Char
deriving DecidableEq, Repr

/-- Model of Python `str.lower` (character-wise lowercasing). -/
def lowerStr (s : List Char) : List Char := s.map Char.toLower

/-- The comparison string built in `fuzzy_match`:
`text = link['text'] + ' ' + link['href']`. -/
def compareText (l : Link) : List Char := l.text ++ ' ' :: l.href

/-- The score of one link in `fuzzy_match`:
`fuzz.partial_ratio(keyword.lower(), text.lower())`, with the external
`partial_ratio` abstracted as `pr`. -/
def scoreOf (pr : List Char → List Char → Nat) (keyword : List Char) (l : Link) : Nat :=
  pr (lowerStr keyword) (lowerStr (compareText l))

/-- The `scored_links` list built by the loop in `fuzzy_match`: one
`(score, href)` pair per link with score `> 0`, in input order. -/
def scored_links (pr : List Char → List Char → Nat) (links : List Link)
    (keyword : List Char) : List (Nat × List Char) :=
  links.foldr
    (fun l acc =>
      if 0 < scoreOf pr keyword l then (scoreOf pr keyword l, l.href) :: acc else acc) []

/-- Stable insertion (descending by score) used to model Python's stable
`list.sort(reverse=True, key=lambda x: x[0])`: an element is placed before
the first element whose score is `≤` its own, so earlier input elements
stay before later equal-scored ones. -/
def insertDesc (x : Nat × List Char) : List (Nat × List Char) → List (Nat × List Char)
  | [] => [x]
  | y :: ys => if y.1 ≤ x.1 then x :: y :: ys else y :: insertDesc x ys

/-- Model of `scored_links.sort(reverse=True, key=lambda x: x[0])`:
the stable descending sort by score. -/
def sortDesc : List (Nat × List Char) → List (Nat × List Char)
  | [] => []
  | x :: xs => insertDesc x (sortDesc xs)

/-- Model of the Python slice `l[:k]`: `k = none` keeps the whole list, a
nonnegative `k` keeps the first `k` elements, and a negative `k` drops the
last `-k` elements. -/
def pySlice (k : Option Int) (l : List α) : List α :=
  match k with
  | none => l
  | some k => if 0 ≤ k then l.take k.toNat else l.take (l.length - (-k).toNat)

/-- The function `fuzzy_match(links, keyword, topn)` from `myrientdl.py`: score, filter
zero scores, stable-sort descending, slice with `topn`, project to hrefs. -/
def fuzzy_match (pr : List Char → List Char → Nat) (links : List Link)
    (keyword : List Char) (topn : Option Int) : List (List Char) :=
  (pySlice topn (sortDesc (scored_links pr links keyword))).map Prod.snd

theorem insertDesc_perm (x : Nat × List Char) (l : List (Nat × List Char)) :
    (insertDesc x l).Perm (x :: l) := by
  induction l with
  | nil => rfl
  | cons y ys ih =>
    simp only [insertDesc]
    split
    · rfl
    · exact (ih.cons y).trans (List.Perm.swap x y ys)

theorem sortDesc_perm (l : List (Nat × List Char)) : (sortDesc l).Perm l := by
  induction l with
  | nil => rfl
  | cons x xs ih =>
    simpa only [sortDesc] using (insertDesc_perm x (sortDesc xs)).trans (ih.cons x)

theorem insertDesc_pairwise (x : Nat × List Char) (l : List (Nat × List Char))
    (h : l.Pairwise (fun a b => b.1 ≤ a.1)) :
    (insertDesc x l).Pairwise (fun a b => b.1 ≤ a.1) := by
  induction l with
  | nil => simp [insertDesc]
  | cons y ys ih =>
    rw [List.pairwise_cons] at h
    simp only [insertDesc]
    by_cases h1 : y.1 ≤ x.1
    · rw [if_pos h1]
      refine List.pairwise_cons.2 ⟨?_, List.pairwise_cons.2 h⟩
      intro z hz
      rcases List.mem_cons.1 hz with rfl | hz
      · exact h1
      · exact le_trans (h.1 z hz) h1
    · rw [if_neg h1]
      refine List.pairwise_cons.2 ⟨?_, ih h.2⟩
      intro z hz
      rcases List.mem_cons.1 ((insertDesc_perm x ys).mem_iff.1 hz) with rfl | hz
      · omega
      · exact h.1 z hz

theorem sortDesc_pairwise (l : List (Nat × List Char)) :
    (sortDesc l).Pairwise (fun a b => b.1 ≤ a.1) := by
  induction l with
  | nil => exact List.Pairwise.nil
  | cons x xs ih => exact insertDesc_pairwise x (sortDesc xs) ih

theorem insertDesc_filter (x : Nat × List Char) (l : List (Nat × List Char)) (s : Nat) :
    (insertDesc x l).filter (fun z => z.1 == s)
      = if x.1 = s then x :: l.filter (fun z => z.1 == s)
        else l.filter (fun z => z.1 == s) := by
  induction l with
  | nil => by_cases hx : x.1 = s <;> simp [insertDesc, hx]
  | cons y ys ih =>
    simp only [insertDesc]
    by_cases h1 : y.1 ≤ x.1
    · rw [if_pos h1]
      by_cases hx : x.1 = s <;> simp [List.filter_cons, hx]
    · rw [if_neg h1]
      by_cases hy : y.1 = s <;> by_cases hx : x.1 = s
      · omega
      · simp [List.filter_cons, hy, hx, ih]
      · simp [List.filter_cons, hy, hx, ih]
      · simp [List.filter_cons, hy, hx, ih]

theorem sortDesc_filter (l : List (Nat × List Char)) (s : Nat) :
    (sortDesc l).filter (fun z => z.1 == s) = l.filter (fun z => z.1 == s) := by
  induction l with
  | nil => rfl
  | cons x xs ih =>
    simp only [sortDesc, insertDesc_filter, ih]
    by_cases hx : x.1 = s <;> simp [List.filter_cons, hx]

theorem scored_links_cons (pr : List Char → List Char → Nat) (l : Link) (ls : List Link)
    (keyword : List Char) :
    scored_links pr (l :: ls) keyword
      = if 0 < scoreOf pr keyword l then (scoreOf pr keyword l, l.href) :: scored_links pr ls keyword
        else scored_links pr ls keyword := rfl

theorem scored_links_eq (pr : List Char → List Char → Nat) (links : List Link)
    (keyword : List Char) :
    scored_links pr links keyword
      = (links.filter (fun l => decide (0 < scoreOf pr keyword l))).map
          (fun l => (scoreOf pr keyword l, l.href)) := by
  induction links with
  | nil => rfl
  | cons l ls ih =>
    rw [scored_links_cons]
    by_cases h : 0 < scoreOf pr keyword l <;> simp [List.filter_cons, h, ih]

/-- C2: the output of `fuzzy_match` with `topn = none` (i) only contains hrefs
of the input links, (ii) is a permutation of the hrefs of exactly the
positively-scoring links in the input (duplicates echoed, zero scores
dropped), and the underlying sorted list is (iii) ordered by score descending
and (iv) stable: within each score class the original input order is kept. -/
theorem C2_rank_order_and_content (pr : List Char → List Char → Nat)
    (links : List Link) (keyword : List Char) :
    (∀ h ∈ fuzzy_match pr links keyword none, h ∈ links.map Link.href) ∧
    (fuzzy_match pr links keyword none).Perm
      ((links.filter (fun l => decide (0 < scoreOf pr keyword l))).map Link.href) ∧
    (sortDesc (scored_links pr links keyword)).Pairwise (fun a b => b.1 ≤ a.1) ∧
    (∀ s : Nat, (sortDesc (scored_links pr links keyword)).filter (fun z => z.1 == s)
        = (scored_links pr links keyword).filter (fun z => z.1 == s)) := by
  have hperm : (fuzzy_match pr links keyword none).Perm
      ((links.filter (fun l => decide (0 < scoreOf pr keyword l))).map Link.href) := by
    have h1 : ((sortDesc (scored_links pr links keyword)).map Prod.snd).Perm
        ((scored_links pr links keyword).map Prod.snd) :=
      (sortDesc_perm (scored_links pr links keyword)).map Prod.snd
    have h2 : (scored_links pr links keyword).map Prod.snd
        = (links.filter (fun l => decide (0 < scoreOf pr keyword l))).map Link.href := by
      rw [scored_links_eq, List.map_map]
      rfl
    simpa [fuzzy_match, pySlice, h2] using h1
  refine ⟨?_, hperm, sortDesc_pairwise _, fun s => sortDesc_filter _ s⟩
  intro h hh
  have := hperm.mem_iff.1 hh
  rcases List.mem_map.1 this with ⟨l, hl, rfl⟩
  exact List.mem_map.2 ⟨l, (List.mem_filter.1 hl).1, rfl⟩

theorem C2_rank_order_and_content_witness :
    (∀ h ∈ fuzzy_match (fun _ t => t.length)
        [⟨['a'], ['x']⟩, ⟨['b','b'], ['y']⟩] ['k'] none,
      h ∈ ([⟨['a'], ['x']⟩, ⟨['b','b'], ['y']⟩] : List Link).map Link.href) ∧
    (fuzzy_match (fun _ t => t.length) [⟨['a'], ['x']⟩, ⟨['b','b'], ['y']⟩] ['k'] none).Perm
      ((([⟨['a'], ['x']⟩, ⟨['b','b'], ['y']⟩] : List Link).filter
          (fun l => decide (0 < scoreOf (fun _ t => t.length) ['k'] l))).map Link.href) ∧
    (sortDesc (scored_links (fun _ t => t.length)
        [⟨['a'], ['x']⟩, ⟨['b','b'], ['y']⟩] ['k'])).Pairwise (fun a b => b.1 ≤ a.1) ∧
    (∀ s : Nat, (sortDesc (scored_links (fun _ t => t.length)
          [⟨['a'], ['x']⟩, ⟨['b','b'], ['y']⟩] ['k'])).filter (fun z => z.1 == s)
        = (scored_links (fun _ t => t.length)
            [⟨['a'], ['x']⟩, ⟨['b','b'], ['y']⟩] ['k']).filter (fun z => z.1 == s)) :=
  C2_rank_order_and_content (fun _ t => t.length) [⟨['a'], ['x']⟩, ⟨['b','b'], ['y']⟩] ['k']

/-- C6 counterexample: with a negative `topn` (Python slice semantics drop
elements from the end) the output length is not `≤ min topn matchCount`,
because `min` with a negative bound is negative while a length is not. -/
theorem C6_cex :
    ¬ (((fuzzy_match (fun _ _ => 5) [⟨['a'], []⟩] [] (some (-1))).length : Int)
        ≤ min (-1) ((scored_links (fun _ _ => 5) [⟨['a'], []⟩] []).length : Int)) := by
  decide

/-- C6 (amended to nonnegative `topn`): for `0 ≤ k`, `fuzzy_match` with
`topn = some k` returns exactly `min k matchCount` entries and is a prefix of
the `topn = none` output, which returns all matches. -/
theorem C6_topn_truncation (pr : List Char → List Char → Nat) (links : List Link)
    (keyword : List Char) (k : Int) (hk : 0 ≤ k) :
    (fuzzy_match pr links keyword (some k)).length
        = min k.toNat (scored_links pr links keyword).length ∧
    (fuzzy_match pr links keyword (some k)).IsPrefix
        (fuzzy_match pr links keyword none) ∧
    (fuzzy_match pr links keyword none).length
        = (scored_links pr links keyword).length := by
  have hlen : (sortDesc (scored_links pr links keyword)).length
      = (scored_links pr links keyword).length :=
    (sortDesc_perm (scored_links pr links keyword)).length_eq
  refine ⟨?_, ?_, ?_⟩
  · simp [fuzzy_match, pySlice, hk, hlen]
  · rw [fuzzy_match, fuzzy_match]
    refine List.IsPrefix.map Prod.snd ?_
    simp only [pySlice, if_pos hk]
    exact List.take_prefix _ _
  · simp [fuzzy_match, pySlice, hlen]

theorem C6_topn_truncation_witness :
    ((0:Int) ≤ 1) ∧
    ((fuzzy_match (fun _ _ => 5) [⟨['a'], []⟩, ⟨['b'], []⟩] ['k'] (some 1)).length
        = min (Int.toNat 1) (scored_links (fun _ _ => 5) [⟨['a'], []⟩, ⟨['b'], []⟩] ['k']).length ∧
    (fuzzy_match (fun _ _ => 5) [⟨['a'], []⟩, ⟨['b'], []⟩] ['k'] (some 1)).IsPrefix
        (fuzzy_match (fun _ _ => 5) [⟨['a'], []⟩, ⟨['b'], []⟩] ['k'] none) ∧
    (fuzzy_match (fun _ _ => 5) [⟨['a'], []⟩, ⟨['b'], []⟩] ['k'] none).length
        = (scored_links (fun _ _ => 5) [⟨['a'], []⟩, ⟨['b'], []⟩] ['k']).length) :=
  ⟨by decide, C6_topn_truncation (fun _ _ => 5) [⟨['a'], []⟩, ⟨['b'], []⟩] ['k'] 1 (by decide)⟩

/-! ## Report sink: `save_links`, `read_links` -/

/-- Model of Python `str.strip`'s whitespace test (ASCII whitespace;
`Char.ofNat 11` and `Char.ofNat 12` are `\v` and `\f`). -/
def pyIsSpace (c : Char) : Bool :=
  c = ' ' || c = '\t' || c = '\n' || c = '\r' || c = Char.ofNat 11 || c = Char.ofNat 12

/-- Model of Python `str.strip()`: drop whitespace from both ends. -/
def pyStrip (l : List Char) : List Char :=
  ((l.dropWhile pyIsSpace).reverse.dropWhile pyIsSpace).reverse

/-- Model of Python text-mode line splitting with universal newlines: a line
break is `\n`, `\r`, or `\r\n`.  The pair `\r\n` is treated as two breaks
here, which differs from Python only by an extra empty piece, and empty
pieces are discarded by the strip-and-filter of `read_links`; likewise a
trailing terminator yields a final empty piece. -/
def splitLinesU : List Char → List (List Char)
  | [] => [[]]
  | c :: cs =>
    if c = '\n' ∨ c = '\r' then [] :: splitLinesU cs
    else
      match splitLinesU cs with
      | [] => [[c]]
      | l :: ls => (c :: l) :: ls

def httpChars : List Char := ['h', 't', 't', 'p', ':', '/', '/']

def httpsChars : List Char := ['h', 't', 't', 'p', 's', ':', '/', '/']

/-- The line filter of `read_links`: `re.match(r'^https?://', line)`. -/
def isUrlLine (l : List Char) : Bool := httpChars.isPrefixOf l || httpsChars.isPrefixOf l

/-- The header line written by `save_links`: `f'--- {keyword} ---'`. -/
def headerChars (kw : List Char) : List Char :=
  '-' :: '-' :: '-' :: ' ' :: kw ++ [' ', '-', '-', '-']

/-- The function `save_links(keyword_links, output_file)` from `myrientdl.py`: the file
content produced by the sequence of `f.write` calls (header line, one line
per link, blank separator line, per keyword in supplied order). -/
def save_links (kl : List (List Char × List (List Char))) : List Char :=
  kl.foldl
    (fun acc p =>
      (p.2.foldl (fun acc2 l => acc2 ++ l ++ ['\n']) (acc ++ headerChars p.1 ++ ['\n']))
        ++ ['\n'])
    []

/-- One keyword's block in the output file of `save_links`. -/
def writeBlock (kw : List Char) (links : List (List Char)) : List Char :=
  headerChars kw ++ '\n' :: ((links.map (fun l => l ++ ['\n'])).flatten ++ ['\n'])

/-- The function `read_links(link_file)` from `myrientdl.py`:
`[line.strip() for line in f if re.match(r'^https?://', line.strip())]`. -/
def read_links (content : List Char) : List (List Char) :=
  ((splitLinesU content).map pyStrip).filter isUrlLine

theorem save_links_foldl_inner (links : List (List Char)) (acc : List Char) :
    links.foldl (fun acc2 l => acc2 ++ l ++ ['\n']) acc
      = acc ++ (links.map (fun l => l ++ ['\n'])).flatten := by
  induction links generalizing acc with
  | nil => simp
  | cons l ls ih =>
    rw [List.foldl_cons, ih]
    simp [List.append_assoc]

theorem save_links_eq_join (kl : List (List Char × List (List Char))) :
    save_links kl = (kl.map (fun p => writeBlock p.1 p.2)).flatten := by
  suffices h : ∀ acc, kl.foldl
      (fun acc p =>
        (p.2.foldl (fun acc2 l => acc2 ++ l ++ ['\n']) (acc ++ headerChars p.1 ++ ['\n']))
          ++ ['\n']) acc
      = acc ++ (kl.map (fun p => writeBlock p.1 p.2)).flatten by
    simpa [save_links] using h []
  induction kl with
  | nil => simp
  | cons p ps ih =>
    intro acc
    rw [List.foldl_cons, ih, save_links_foldl_inner]
    simp [writeBlock, List.append_assoc]

theorem save_links_cons (p : List Char × List (List Char))
    (ps : List (List Char × List (List Char))) :
    save_links (p :: ps) = writeBlock p.1 p.2 ++ save_links ps := by
  rw [save_links_eq_join, save_links_eq_join, List.map_cons, List.flatten_cons]

/-- C10: `save_links` writes, for every supplied keyword in supplied order
(including keywords with an empty match list), exactly one block consisting
of the header line `--- {keyword} ---`, one line per href, and a trailing
blank line. -/
theorem C10_save_links_block_per_keyword (kl : List (List Char × List (List Char))) :
    save_links kl = (kl.map (fun p => writeBlock p.1 p.2)).flatten :=
  save_links_eq_join kl

theorem splitLinesU_newline (cs : List Char) :
    splitLinesU ('\n' :: cs) = [] :: splitLinesU cs := by
  simp [splitLinesU]

theorem splitLinesU_cons_eq (c : Char) (cs : List Char) (h1 : c ≠ '\n') (h2 : c ≠ '\r')
    (l : List Char) (ls : List (List Char)) (h : splitLinesU cs = l :: ls) :
    splitLinesU (c :: cs) = (c :: l) :: ls := by
  simp [splitLinesU, h1, h2, h]

theorem splitLinesU_ne_nil (l : List Char) : splitLinesU l ≠ [] := by
  cases l with
  | nil => decide
  | cons c cs =>
    simp only [splitLinesU]
    split
    · simp
    · split <;> simp

theorem splitLinesU_line (xs ys : List Char) (h : ∀ c ∈ xs, c ≠ '\n' ∧ c ≠ '\r') :
    splitLinesU (xs ++ '\n' :: ys) = xs :: splitLinesU ys := by
  induction xs with
  | nil => simpa using splitLinesU_newline ys
  | cons c xs ih =>
    have hc := h c (List.mem_cons_self c xs)
    have ih' := ih fun d hd => h d (List.mem_cons_of_mem c hd)
    obtain ⟨l, ls, hls⟩ : ∃ l ls, splitLinesU (xs ++ '\n' :: ys) = l :: ls := by
      rcases e : splitLinesU (xs ++ '\n' :: ys) with _ | ⟨l, ls⟩
      · exact absurd e (splitLinesU_ne_nil _)
      · exact ⟨l, ls, rfl⟩
    rw [hls] at ih'
    cases ih'
    rw [List.cons_append]
    exact splitLinesU_cons_eq c _ hc.1 hc.2 xs (splitLinesU ys) hls

theorem splitLinesU_body (links : List (List Char)) (t : List Char)
    (h : ∀ l ∈ links, ∀ c ∈ l, c ≠ '\n' ∧ c ≠ '\r') :
    splitLinesU ((links.map (fun l => l ++ ['\n'])).flatten ++ t) = links ++ splitLinesU t := by
  induction links with
  | nil => simp
  | cons l ls ih =>
    have h1 := splitLinesU_line l ((ls.map (fun x => x ++ ['\n'])).flatten ++ t)
      (h l (List.mem_cons_self l ls))
    have h2 := ih fun x hx => h x (List.mem_cons_of_mem l hx)
    rw [List.map_cons, List.flatten_cons, List.append_assoc, List.append_assoc,
      List.singleton_append, h1, h2, List.cons_append]

theorem dropWhile_eq_self_all (p : Char → Bool) (l : List Char)
    (h : ∀ c ∈ l, p c = false) : l.dropWhile p = l := by
  cases l with
  | nil => rfl
  | cons c cs => simp [List.dropWhile_cons, h c (List.mem_cons_self c cs)]

theorem pyStrip_eq_self (l : List Char) (h : ∀ c ∈ l, pyIsSpace c = false) :
    pyStrip l = l := by
  unfold pyStrip
  rw [dropWhile_eq_self_all _ _ h,
    dropWhile_eq_self_all _ _ (fun c hc => h c (List.mem_reverse.1 hc)),
    List.reverse_reverse]

theorem dropWhile_append_last (p : Char → Bool) (c : Char) (h : p c = false)
    (ys : List Char) : ∃ zs, (ys ++ [c]).dropWhile p = zs ++ [c] := by
  induction ys with
  | nil => exact ⟨[], by simp [List.dropWhile_cons, h]⟩
  | cons y ys ih =>
    by_cases hy : p y
    · obtain ⟨zs, hzs⟩ := ih
      exact ⟨zs, by simp [List.dropWhile_cons, hy, hzs]⟩
    · exact ⟨y :: ys, by simp [List.dropWhile_cons, hy]⟩

theorem pyStrip_cons_head (c : Char) (xs : List Char) (h : pyIsSpace c = false) :
    ∃ t, pyStrip (c :: xs) = c :: t := by
  unfold pyStrip
  rw [List.dropWhile_cons, h]
  simp only [Bool.false_eq_true, if_false, List.reverse_cons]
  obtain ⟨zs, hzs⟩ := dropWhile_append_last pyIsSpace c h xs.reverse
  exact ⟨zs.reverse, by rw [hzs, List.reverse_append, List.reverse_singleton,
    List.singleton_append]⟩

theorem isUrlLine_dash (t : List Char) : isUrlLine ('-' :: t) = false := by
  have h1 : ('h' == '-') = false := by decide
  simp [isUrlLine, httpChars, httpsChars, List.isPrefixOf, h1]

theorem headerChars_mem (kw : List Char) (c : Char) (hc : c ∈ headerChars kw) :
    c = '-' ∨ c = ' ' ∨ c ∈ kw := by
  simp only [headerChars, List.mem_cons, List.mem_append, List.mem_cons,
    List.mem_singleton] at hc
  tauto

theorem headerChars_strip_not_url (kw : List Char) :
    isUrlLine (pyStrip (headerChars kw)) = false := by
  obtain ⟨t, ht⟩ := pyStrip_cons_head '-'
    ('-' :: '-' :: ' ' :: kw ++ [' ', '-', '-', '-']) (by decide)
  rw [headerChars]
  rw [show ('-' :: '-' :: '-' :: ' ' :: kw ++ [' ', '-', '-', '-'])
      = '-' :: ('-' :: '-' :: ' ' :: kw ++ [' ', '-', '-', '-']) from rfl, ht]
  exact isUrlLine_dash t

theorem map_pyStrip_id (links : List (List Char))
    (h : ∀ l ∈ links, ∀ c ∈ l, pyIsSpace c = false) : links.map pyStrip = links := by
  induction links with
  | nil => rfl
  | cons l ls ih =>
    rw [List.map_cons, pyStrip_eq_self l (h l (List.mem_cons_self l ls)),
      ih fun x hx => h x (List.mem_cons_of_mem l hx)]

theorem filter_isUrl_id (links : List (List Char))
    (h : ∀ l ∈ links, isUrlLine l = true) : links.filter isUrlLine = links := by
  induction links with
  | nil => rfl
  | cons l ls ih =>
    rw [List.filter_cons, if_pos (h l (List.mem_cons_self l ls)),
      ih fun x hx => h x (List.mem_cons_of_mem l hx)]

theorem pyIsSpace_char_cases (c : Char) (h : pyIsSpace c = false) :
    c ≠ '\n' ∧ c ≠ '\r' := by
  constructor <;> rintro rfl <;> simp [pyIsSpace] at h

/-- C7 counterexample: the claim constrains only the hrefs, but a keyword
containing a newline injects a line that `read_links` mistakes for a URL.
With the single mapping `{"a\nhttp://x": []}` the round trip returns the
spurious line `http://x ---` instead of the empty list. -/
theorem C7_cex :
    read_links (save_links [(['a', '\n', 'h', 't', 't', 'p', ':', '/', '/', 'x'], [])])
      ≠ (([(['a', '\n', 'h', 't', 't', 'p', ':', '/', '/', 'x'],
            ([] : List (List Char)))].map Prod.snd).flatten) := by
  decide

/-- C7 (amended: keywords additionally contain no newline or carriage-return
characters): writing a keyword-to-hrefs mapping with `save_links` and reading
the file back with `read_links` yields exactly the concatenation of the
per-keyword href lists in order, headers and blank lines excluded. -/
theorem C7_roundtrip (kl : List (List Char × List (List Char)))
    (hkw : ∀ p ∈ kl, ∀ c ∈ p.1, c ≠ '\n' ∧ c ≠ '\r')
    (hhref : ∀ p ∈ kl, ∀ h ∈ p.2, isUrlLine h = true ∧ ∀ c ∈ h, pyIsSpace c = false) :
    read_links (save_links kl) = (kl.map Prod.snd).flatten := by
  induction kl with
  | nil => rfl
  | cons p ps ih =>
    obtain ⟨kw, links⟩ := p
    have hkw1 : ∀ c ∈ headerChars kw, c ≠ '\n' ∧ c ≠ '\r' := by
      intro c hc
      rcases headerChars_mem kw c hc with rfl | rfl | hc
      · exact ⟨by decide, by decide⟩
      · exact ⟨by decide, by decide⟩
      · exact hkw (kw, links) (List.mem_cons_self _ _) c hc
    have hlinks := hhref (kw, links) (List.mem_cons_self _ _)
    have hlinks1 : ∀ l ∈ links, ∀ c ∈ l, c ≠ '\n' ∧ c ≠ '\r' :=
      fun l hl c hc => pyIsSpace_char_cases c ((hlinks l hl).2 c hc)
    have hcontent : save_links ((kw, links) :: ps)
        = headerChars kw ++ '\n'
            :: ((links.map (fun l => l ++ ['\n'])).flatten ++ '\n' :: save_links ps) := by
      rw [save_links_cons, writeBlock, List.append_assoc, List.cons_append,
        List.append_assoc, List.singleton_append]
    have hsplit : splitLinesU (save_links ((kw, links) :: ps))
        = headerChars kw :: (links ++ [] :: splitLinesU (save_links ps)) := by
      rw [hcontent, splitLinesU_line _ _ hkw1, splitLinesU_body links _ hlinks1,
        splitLinesU_newline]
    rw [read_links, hsplit]
    rw [List.map_cons, List.filter_cons, headerChars_strip_not_url kw]
    simp only [Bool.false_eq_true, if_false]
    rw [List.map_append, List.map_cons,
      map_pyStrip_id links (fun l hl => (hlinks l hl).2),
      List.filter_append, filter_isUrl_id links (fun l hl => (hlinks l hl).1),
      List.filter_cons]
    have hempty : pyStrip ([] : List Char) = [] := rfl
    rw [hempty]
    have hemptyurl : isUrlLine ([] : List Char) = false := by decide
    rw [hemptyurl]
    simp only [Bool.false_eq_true, if_false]
    rw [show ((List.map pyStrip (splitLinesU (save_links ps))).filter isUrlLine)
        = read_links (save_links ps) from rfl]
    rw [ih (fun q hq => hkw q (List.mem_cons_of_mem _ hq))
        (fun q hq => hhref q (List.mem_cons_of_mem _ hq))]
    rw [List.map_cons, List.flatten_cons]

theorem C7_roundtrip_witness :
    (∀ p ∈ [((['m'] : List Char), [httpChars ++ ['a']])], ∀ c ∈ p.1, c ≠ '\n' ∧ c ≠ '\r') ∧
    (∀ p ∈ [((['m'] : List Char), [httpChars ++ ['a']])], ∀ h ∈ p.2,
        isUrlLine h = true ∧ ∀ c ∈ h, pyIsSpace c = false) ∧
    read_links (save_links [((['m'] : List Char), [httpChars ++ ['a']])])
      = (([((['m'] : List Char), [httpChars ++ ['a']])].map Prod.snd).flatten) :=
  ⟨by decide, by decide,
    C7_roundtrip [(['m'], [httpChars ++ ['a']])] (by decide) (by decide)⟩

/-! ## Retrying fetcher: `download_link` -/

/-- Response metadata visible to `download_link` after a streaming GET whose
body was written out successfully; the only header the naming logic reads is
`Content-Disposition`. -/
structure Response where
  contentDisposition : Option (List Char)
deriving DecidableEq, Repr

/-- The outcome of one iteration of the `try` body of `download_link`:
either the body runs to completion with a response, or some exception is
raised anywhere inside it (bad status, network error, file error) and is
carried as its message string. -/
inductive AttemptR where
  | ok (resp : Response)
  | exc (e : List Char)
deriving DecidableEq, Repr

/-- Python `str.split(sep)` for a one-character separator (always returns at
least one piece). -/
def splitOnChar (sep : Char) : List Char → List (List Char)
  | [] => [[]]
  | c :: cs =>
    if c = sep then [] :: splitOnChar sep cs
    else
      match splitOnChar sep cs with
      | [] => [[c]]
      | l :: ls => (c :: l) :: ls

/-- Model of `url.split('/')[-1]` (also of posix `os.path.basename`). -/
def lastSegment (url : List Char) : List Char := (splitOnChar '/' url).getLastD []

/-- Model of posix `os.path.join(path, name)` for the two-argument calls in
`download_link`. -/
def pyJoin (path name : List Char) : List Char :=
  if name.head? = some '/' then name
  else if path = [] then name
  else if path.getLast? = some '/' then path ++ name
  else path ++ '/' :: name

/-- The longest proper initial part of `seg` that is followed by a `'"'`,
i.e. everything strictly before the last double quote of `seg`. -/
def beforeLastQuote : List Char → Option (List Char)
  | [] => none
  | c :: cs =>
    match beforeLastQuote cs with
    | some p => some (c :: p)
    | none => if c = '"' then some [] else none

/-- The capture of the regex `filename="(.+)"` when anchored directly after
the literal `filename="`: the greedy `(.+)` runs to the last quote on the
same line, and must be nonempty. -/
def reCapture (seg : List Char) : Option (List Char) :=
  match beforeLastQuote seg with
  | some [] => none
  | some p => some p
  | none => none

def filenameLit : List Char := ['f', 'i', 'l', 'e', 'n', 'a', 'm', 'e', '=', '"']

/-- The first match's capture of `re.findall('filename="(.+)"', header)`:
scan left to right for the literal `filename="`, then capture greedily up to
the last quote before the next newline; on failure resume the scan one
character further. -/
def findFilenameCapture : List Char → Option (List Char)
  | [] => none
  | c :: cs =>
    if filenameLit.isPrefixOf (c :: cs) then
      match reCapture (((c :: cs).drop 10).takeWhile (fun d => d ≠ '\n')) with
      | some cap => some cap
      | none => findFilenameCapture cs
    else findFilenameCapture cs

/-- The `local_filename` computation of `download_link`: prefer the
`filename="..."` capture of a present (and nonempty) content-disposition
header, otherwise the final `/`-separated segment of the URL. -/
def derive_local_filename (path url : List Char) (cd : Option (List Char)) : List Char :=
  match cd with
  | none => pyJoin path (lastSegment url)
  | some h =>
    if h = [] then pyJoin path (lastSegment url)
    else
      match findFilenameCapture h with
      | some cap => pyJoin path cap
      | none => pyJoin path (lastSegment url)

/-- The progress-bar label of `download_link`: the percent-decoded (via the
abstracted `urllib.parse.unquote`, `uq`) basename of the local filename,
truncated to 27 characters plus `...` when longer than 30. -/
def display_name (uq : List Char → List Char) (localFilename : List Char) : List Char :=
  if (uq (lastSegment localFilename)).length ≤ 30 then uq (lastSegment localFilename)
  else (uq (lastSegment localFilename)).take 27 ++ ['.', '.', '.']

def intStr (i : Int) : List Char := (toString i).toList

/-- The returned success message: `f"Downloaded {url} to {local_filename}"`. -/
def successMsg (url fname : List Char) : List Char :=
  "Downloaded ".toList ++ url ++ " to ".toList ++ fname

/-- The returned failure message: `f"Failed to download {url}: {e}"`. -/
def failMsg (url e : List Char) : List Char :=
  "Failed to download ".toList ++ url ++ ": ".toList ++ e

/-- The line appended to the error log on final failure:
`f"Failed to download {url} after {retries} attempts: {e}\n"`. -/
def logLine (url : List Char) (retries : Int) (e : List Char) : List Char :=
  "Failed to download ".toList ++ url ++ " after ".toList ++ intStr retries
    ++ " attempts: ".toList ++ e ++ ['\n']

/-- The printed retry notice: `f"Retrying {url} ({attempt}/{retries})..."`. -/
def retryNotice (url : List Char) (attempt retries : Int) : List Char :=
  "Retrying ".toList ++ url ++ " (".toList ++ intStr attempt ++ "/".toList
    ++ intStr retries ++ ")...".toList

/-- The observable result of one `download_link` call: the returned value
(`none` models Python's implicit `None` when the loop body never runs), the
number of attempts made, the lines appended to the error log, and the retry
notices printed. -/
structure DLResult where
  ret : Option (List Char)
  attemptsMade : Nat
  errorLog : List (List Char)
  notices : List (List Char)
deriving DecidableEq, Repr

/-- The `while attempt < retries` loop of `download_link`, with the
per-attempt behaviour supplied by `oracle` (attempt counter values index
into it). -/
def dlGo (url path : List Char) (retries : Int) (oracle : Nat → AttemptR)
    (attempt : Int) (made : Nat) (log notices : List (List Char)) : DLResult :=
  if attempt < retries then
    match oracle attempt.toNat with
    | AttemptR.ok resp =>
      ⟨some (successMsg url (derive_local_filename path url resp.contentDisposition)),
        made + 1, log, notices⟩
    | AttemptR.exc e =>
      if attempt + 1 = retries then
        ⟨some (failMsg url e), made + 1, log ++ [logLine url retries e], notices⟩
      else
        dlGo url path retries oracle (attempt + 1) (made + 1) log
          (notices ++ [retryNotice url (attempt + 1) retries])
  else ⟨none, made, log, notices⟩
termination_by (retries - attempt).toNat
decreasing_by omega

/-- The function `download_link(url, path, retries)` from `myrientdl.py`. -/
def download_link (url path : List Char) (retries : Int) (oracle : Nat → AttemptR) :
    DLResult :=
  dlGo url path retries oracle 0 0 [] []

theorem dlGo_exit {url path : List Char} {retries : Int} {oracle : Nat → AttemptR}
    {attempt : Int} {made : Nat} {log notices : List (List Char)}
    (h : ¬ attempt < retries) :
    dlGo url path retries oracle attempt made log notices = ⟨none, made, log, notices⟩ := by
  rw [dlGo]
  simp [h]

theorem dlGo_ok {url path : List Char} {retries : Int} {oracle : Nat → AttemptR}
    {attempt : Int} {made : Nat} {log notices : List (List Char)} {resp : Response}
    (h : attempt < retries) (ho : oracle attempt.toNat = AttemptR.ok resp) :
    dlGo url path retries oracle attempt made log notices
      = ⟨some (successMsg url (derive_local_filename path url resp.contentDisposition)),
          made + 1, log, notices⟩ := by
  rw [dlGo]
  simp [h, ho]

theorem dlGo_exc_last {url path : List Char} {retries : Int} {oracle : Nat → AttemptR}
    {attempt : Int} {made : Nat} {log notices : List (List Char)} {e : List Char}
    (h : attempt < retries) (ho : oracle attempt.toNat = AttemptR.exc e)
    (hl : attempt + 1 = retries) :
    dlGo url path retries oracle attempt made log notices
      = ⟨some (failMsg url e), made + 1, log ++ [logLine url retries e], notices⟩ := by
  rw [dlGo]
  simp [h, ho, hl]

theorem dlGo_exc_step {url path : List Char} {retries : Int} {oracle : Nat → AttemptR}
    {attempt : Int} {made : Nat} {log notices : List (List Char)} {e : List Char}
    (h : attempt < retries) (ho : oracle attempt.toNat = AttemptR.exc e)
    (hl : ¬ attempt + 1 = retries) :
    dlGo url path retries oracle attempt made log notices
      = dlGo url path retries oracle (attempt + 1) (made + 1) log
          (notices ++ [retryNotice url (attempt + 1) retries]) := by
  rw [dlGo]
  simp [h, ho, hl]

/-- The retry notices printed while the attempt counter runs from `j` to `k`
with every attempt failing. -/
def pendingNotices (url : List Char) (retries : Int) (j k : Nat) : List (List Char) :=
  (List.range (k - j)).map
    (fun i : Nat => retryNotice url ((j : Int) + 1 + (i : Int)) retries)

theorem pendingNotices_length (url : List Char) (retries : Int) (j k : Nat) :
    (pendingNotices url retries j k).length = k - j := by
  simp [pendingNotices]

theorem pendingNotices_eq (url : List Char) (retries : Int) (j k : Nat) (h : j < k) :
    pendingNotices url retries j k
      = retryNotice url ((j : Int) + 1) retries :: pendingNotices url retries (j + 1) k := by
  unfold pendingNotices
  have hk : k - j = (k - (j + 1)) + 1 := by omega
  rw [hk, List.range_succ_eq_map, List.map_cons, List.map_map]
  refine congrArg₂ List.cons (by simp) ?_
  refine List.map_congr_left fun i _ => ?_
  have hc : (j : Int) + 1 + ((Nat.succ i : Nat) : Int) = ((j + 1 : Nat) : Int) + 1 + (i : Int) := by
    push_cast
    ring
  simp only [Function.comp_apply, hc]

theorem dlGo_fail_segment (url path : List Char) (retries : Int) (oracle : Nat → AttemptR)
    (err : Nat → List Char) (k : Nat) (hk : (k : Int) < retries)
    (hfail : ∀ i, i < k → oracle i = AttemptR.exc (err i)) :
    ∀ j, j ≤ k → ∀ (made : Nat) (log notices : List (List Char)),
    dlGo url path retries oracle (j : Int) made log notices
      = dlGo url path retries oracle (k : Int) (made + (k - j)) log
          (notices ++ pendingNotices url retries j k) := by
  suffices h : ∀ d j, k - j = d → j ≤ k → ∀ (made : Nat) (log notices : List (List Char)),
      dlGo url path retries oracle (j : Int) made log notices
        = dlGo url path retries oracle (k : Int) (made + (k - j)) log
            (notices ++ pendingNotices url retries j k) by
    intro j hj made log notices
    exact h (k - j) j rfl hj made log notices
  intro d
  induction d with
  | zero =>
    intro j hdj hj made log notices
    have hjk : j = k := by omega
    subst hjk
    simp [pendingNotices]
  | succ d ih =>
    intro j hdj hj made log notices
    have hjk : j < k := by omega
    have h1 : (j : Int) < retries := by
      have : (j : Int) < (k : Int) := by exact_mod_cast hjk
      omega
    have h2 : ¬ (j : Int) + 1 = retries := by
      have : (j : Int) + 1 ≤ (k : Int) := by exact_mod_cast hjk
      omega
    have ho : oracle ((j : Int)).toNat = AttemptR.exc (err j) := by
      rw [Int.toNat_natCast]
      exact hfail j hjk
    rw [dlGo_exc_step h1 ho h2]
    have hcast : ((j : Int) + 1) = ((j + 1 : Nat) : Int) := by push_cast; ring
    rw [hcast, ih (j + 1) (by omega) (by omega) (made + 1) log
          (notices ++ [retryNotice url ((j + 1 : Nat) : Int) retries])]
    have hmade : made + 1 + (k - (j + 1)) = made + (k - j) := by omega
    rw [hmade, pendingNotices_eq url retries j k hjk]
    conv_rhs => rw [List.append_cons]
    rw [← hcast]

/-- C1: for `maxAttempts = N ≥ 1`, a `download_link` call whose every
attempt raises makes exactly `N` attempts, returns the failure message
carrying the last error, and appends exactly the one error-log line
`Failed to download {url} after {N} attempts: {lastError}`. -/
theorem C1_exhausted_retries (url path : List Char) (N : Nat) (err : Nat → List Char)
    (hN : 1 ≤ N) :
    (download_link url path (N : Int) (fun i => AttemptR.exc (err i))).ret
        = some (failMsg url (err (N - 1))) ∧
    (download_link url path (N : Int) (fun i => AttemptR.exc (err i))).attemptsMade = N ∧
    (download_link url path (N : Int) (fun i => AttemptR.exc (err i))).errorLog
        = [logLine url (N : Int) (err (N - 1))] := by
  unfold download_link
  have hk : ((N - 1 : Nat) : Int) < (N : Int) := by omega
  have hseg := dlGo_fail_segment url path (N : Int) (fun i => AttemptR.exc (err i)) err
      (N - 1) hk (fun i _ => rfl) 0 (by omega) 0 [] []
  have h0 : ((0 : Nat) : Int) = (0 : Int) := by norm_num
  rw [h0] at hseg
  rw [hseg]
  have hlast : ((N - 1 : Nat) : Int) + 1 = (N : Int) := by omega
  have ho : (fun i => AttemptR.exc (err i)) (((N - 1 : Nat) : Int)).toNat
      = AttemptR.exc (err (N - 1)) := by
    rw [Int.toNat_natCast]
  rw [dlGo_exc_last hk ho hlast]
  refine ⟨rfl, ?_, ?_⟩
  · show 0 + (N - 1 - 0) + 1 = N
    omega
  · show [] ++ [logLine url (N : Int) (err (N - 1))] = [logLine url (N : Int) (err (N - 1))]
    simp

theorem C1_exhausted_retries_witness :
    (1 ≤ 2) ∧
    ((download_link ['u'] ['p'] ((2 : Nat) : Int) (fun i => AttemptR.exc [Char.ofNat (65 + i)])).ret
        = some (failMsg ['u'] [Char.ofNat (65 + (2 - 1))]) ∧
    (download_link ['u'] ['p'] ((2 : Nat) : Int)
        (fun i => AttemptR.exc [Char.ofNat (65 + i)])).attemptsMade = 2 ∧
    (download_link ['u'] ['p'] ((2 : Nat) : Int)
        (fun i => AttemptR.exc [Char.ofNat (65 + i)])).errorLog
        = [logLine ['u'] ((2 : Nat) : Int) [Char.ofNat (65 + (2 - 1))]]) :=
  ⟨by decide, C1_exhausted_retries ['u'] ['p'] 2 (fun i => [Char.ofNat (65 + i)]) (by decide)⟩

/-- C5: with `maxAttempts = N` and `k < N`, if the first `k` attempts raise
and attempt `k + 1` succeeds, `download_link` returns the success message,
stops after `k + 1` attempts, appends nothing to the error log, and prints
exactly `k` retry notices. -/
theorem C5_success_after_transient_failures (url path : List Char) (N k : Nat)
    (err : Nat → List Char) (resp : Response) (hk : k < N) :
    (download_link url path (N : Int)
        (fun i => if i < k then AttemptR.exc (err i) else AttemptR.ok resp)).ret
      = some (successMsg url (derive_local_filename path url resp.contentDisposition)) ∧
    (download_link url path (N : Int)
        (fun i => if i < k then AttemptR.exc (err i) else AttemptR.ok resp)).attemptsMade
      = k + 1 ∧
    (download_link url path (N : Int)
        (fun i => if i < k then AttemptR.exc (err i) else AttemptR.ok resp)).errorLog = [] ∧
    (download_link url path (N : Int)
        (fun i => if i < k then AttemptR.exc (err i) else AttemptR.ok resp)).notices
      = pendingNotices url (N : Int) 0 k ∧
    (download_link url path (N : Int)
        (fun i => if i < k then AttemptR.exc (err i) else AttemptR.ok resp)).notices.length
      = k := by
  unfold download_link
  have hklt : ((k : Nat) : Int) < (N : Int) := by omega
  have hseg := dlGo_fail_segment url path (N : Int)
      (fun i => if i < k then AttemptR.exc (err i) else AttemptR.ok resp) err k hklt
      (fun i hi => by simp [hi]) 0 (by omega) 0 [] []
  have h0 : ((0 : Nat) : Int) = (0 : Int) := by norm_num
  rw [h0] at hseg
  rw [hseg]
  have ho : (fun i => if i < k then AttemptR.exc (err i) else AttemptR.ok resp)
      (((k : Nat) : Int)).toNat = AttemptR.ok resp := by
    rw [Int.toNat_natCast]
    simp
  rw [dlGo_ok hklt ho]
  refine ⟨rfl, ?_, rfl, ?_, ?_⟩
  · show 0 + (k - 0) + 1 = k + 1
    omega
  · show [] ++ pendingNotices url (N : Int) 0 k = pendingNotices url (N : Int) 0 k
    simp
  · show ([] ++ pendingNotices url (N : Int) 0 k).length = k
    simp [pendingNotices_length]

theorem C5_success_after_transient_failures_witness :
    (2 < 3) ∧
    ((download_link ['u'] ['p'] ((3 : Nat) : Int)
        (fun i => if i < 2 then AttemptR.exc [Char.ofNat (65 + i)]
          else AttemptR.ok ⟨none⟩)).ret
      = some (successMsg ['u'] (derive_local_filename ['p'] ['u']
          (Response.contentDisposition ⟨none⟩))) ∧
    (download_link ['u'] ['p'] ((3 : Nat) : Int)
        (fun i => if i < 2 then AttemptR.exc [Char.ofNat (65 + i)]
          else AttemptR.ok ⟨none⟩)).attemptsMade = 2 + 1 ∧
    (download_link ['u'] ['p'] ((3 : Nat) : Int)
        (fun i => if i < 2 then AttemptR.exc [Char.ofNat (65 + i)]
          else AttemptR.ok ⟨none⟩)).errorLog = [] ∧
    (download_link ['u'] ['p'] ((3 : Nat) : Int)
        (fun i => if i < 2 then AttemptR.exc [Char.ofNat (65 + i)]
          else AttemptR.ok ⟨none⟩)).notices = pendingNotices ['u'] ((3 : Nat) : Int) 0 2 ∧
    (download_link ['u'] ['p'] ((3 : Nat) : Int)
        (fun i => if i < 2 then AttemptR.exc [Char.ofNat (65 + i)]
          else AttemptR.ok ⟨none⟩)).notices.length = 2) :=
  ⟨by decide, C5_success_after_transient_failures ['u'] ['p'] 3 2
    (fun i => [Char.ofNat (65 + i)]) ⟨none⟩ (by decide)⟩

/-- C9: with `retries ≤ 0` the `while attempt < retries` loop body never
runs, so `download_link` returns Python's implicit `None`, makes no attempt,
appends no error-log line, and prints nothing. -/
theorem C9_nonpositive_retries (url path : List Char) (retries : Int)
    (oracle : Nat → AttemptR) (h : retries ≤ 0) :
    download_link url path retries oracle = ⟨none, 0, [], []⟩ := by
  unfold download_link
  exact dlGo_exit (by omega)

theorem C9_nonpositive_retries_witness :
    ((0 : Int) ≤ 0) ∧
    download_link ['u'] ['p'] 0 (fun _ => AttemptR.exc ['x']) = ⟨none, 0, [], []⟩ :=
  ⟨by decide, C9_nonpositive_retries ['u'] ['p'] 0 (fun _ => AttemptR.exc ['x']) (by decide)⟩

theorem dlGo_ret_total (url path : List Char) (retries : Int) (oracle : Nat → AttemptR) :
    ∀ d (attempt : Int), (retries - attempt).toNat = d → attempt < retries →
    ∀ (made : Nat) (log notices : List (List Char)),
    ∃ m, (dlGo url path retries oracle attempt made log notices).ret = some m ∧
      ((∃ f, m = successMsg url f) ∨ (∃ e, m = failMsg url e)) := by
  intro d
  induction d using Nat.strong_induction_on with
  | _ d ih =>
    intro attempt hd hlt made log notices
    cases horacle : oracle attempt.toNat with
    | ok resp =>
      rw [dlGo_ok hlt horacle]
      exact ⟨_, rfl, Or.inl ⟨_, rfl⟩⟩
    | exc e =>
      by_cases hlast : attempt + 1 = retries
      · rw [dlGo_exc_last hlt horacle hlast]
        exact ⟨_, rfl, Or.inr ⟨e, rfl⟩⟩
      · rw [dlGo_exc_step hlt horacle hlast]
        exact ih ((retries - (attempt + 1)).toNat) (by omega) (attempt + 1) rfl (by omega)
          (made + 1) log _

/-- C4: for `retries ≥ 1` and any per-attempt behaviour (every attempt may
raise an arbitrary exception), `download_link` returns a value — the success
or the failure message — rather than propagating the exception. -/
theorem C4_all_failures_captured (url path : List Char) (retries : Int)
    (oracle : Nat → AttemptR) (h : 1 ≤ retries) :
    ∃ m, (download_link url path retries oracle).ret = some m ∧
      ((∃ f, m = successMsg url f) ∨ (∃ e, m = failMsg url e)) := by
  unfold download_link
  exact dlGo_ret_total url path retries oracle (retries - 0).toNat 0 rfl (by omega) 0 [] []

theorem C4_all_failures_captured_witness :
    ((1 : Int) ≤ 1) ∧
    ∃ m, (download_link ['u'] ['p'] 1 (fun _ => AttemptR.exc ['x'])).ret = some m ∧
      ((∃ f, m = successMsg ['u'] f) ∨ (∃ e, m = failMsg ['u'] e)) :=
  ⟨by decide, C4_all_failures_captured ['u'] ['p'] 1 (fun _ => AttemptR.exc ['x']) (by decide)⟩

theorem beforeLastQuote_spec (seg : List Char) (p : List Char) :
    beforeLastQuote seg = some p → ∃ t, seg = p ++ '"' :: t := by
  induction seg generalizing p with
  | nil => intro h; simp [beforeLastQuote] at h
  | cons c cs ih =>
    intro h
    simp only [beforeLastQuote] at h
    cases hb : beforeLastQuote cs with
    | some q =>
      rw [hb] at h
      obtain rfl : c :: q = p := by simpa using h
      obtain ⟨t, ht⟩ := ih q hb
      exact ⟨t, by rw [ht, List.cons_append]⟩
    | none =>
      rw [hb] at h
      by_cases hq : c = '"'
      · rw [if_pos hq] at h
        obtain rfl : ([] : List Char) = p := by simpa using h
        exact ⟨cs, by rw [hq]; rfl⟩
      · rw [if_neg hq] at h
        simp at h

theorem reCapture_spec (seg p : List Char) (h : reCapture seg = some p) :
    p ≠ [] ∧ ∃ t, seg = p ++ '"' :: t := by
  unfold reCapture at h
  cases hb : beforeLastQuote seg with
  | none => rw [hb] at h; simp at h
  | some q =>
    rw [hb] at h
    cases q with
    | nil => simp at h
    | cons x xs =>
      obtain rfl : x :: xs = p := by simpa using h
      exact ⟨by simp, beforeLastQuote_spec seg _ hb⟩

theorem mem_takeWhile_prop (p : Char → Bool) (l : List Char) (x : Char) :
    x ∈ l.takeWhile p → p x = true := by
  induction l with
  | nil => intro h; simp [List.takeWhile] at h
  | cons c cs ih =>
    intro h
    rw [List.takeWhile_cons] at h
    by_cases hc : p c
    · rw [if_pos hc] at h
      rcases List.mem_cons.1 h with rfl | h
      · exact hc
      · exact ih h
    · rw [if_neg hc] at h
      simp at h

theorem findFilenameCapture_spec (hdr cap : List Char) :
    findFilenameCapture hdr = some cap →
    cap ≠ [] ∧ '\n' ∉ cap ∧ ∃ pre post, hdr = pre ++ filenameLit ++ (cap ++ '"' :: post) := by
  induction hdr with
  | nil => intro hc; simp [findFilenameCapture] at hc
  | cons c cs ih =>
    intro hc
    simp only [findFilenameCapture] at hc
    by_cases hp : filenameLit.isPrefixOf (c :: cs)
    · rw [if_pos hp] at hc
      cases hr : reCapture ((List.drop 10 (c :: cs)).takeWhile (fun d => d ≠ '\n')) with
      | some cap0 =>
        rw [hr] at hc
        obtain rfl : cap0 = cap := by simpa using hc
        obtain ⟨hne, t, ht⟩ := reCapture_spec _ _ hr
        obtain ⟨rest, hrest⟩ := List.isPrefixOf_iff_prefix.1 hp
        have hdrop : List.drop 10 (c :: cs) = rest := by
          rw [← hrest]
          have h10 : filenameLit.length = 10 := rfl
          rw [← h10, List.drop_left]
        have ht' : List.takeWhile (fun d => decide (d ≠ '\n')) rest = cap0 ++ '"' :: t := by
          rw [← hdrop]
          exact ht
        refine ⟨hne, ?_, [], t ++ List.dropWhile (fun d => decide (d ≠ '\n')) rest, ?_⟩
        · intro hmem
          have hin : '\n' ∈ List.takeWhile (fun d => decide (d ≠ '\n')) rest := by
            rw [ht']
            exact List.mem_append_left _ hmem
          have hx := mem_takeWhile_prop _ _ _ hin
          simp at hx
        · have hrest2 : (cap0 ++ '"' :: t)
              ++ List.dropWhile (fun d => decide (d ≠ '\n')) rest = rest := by
            rw [← ht']
            exact List.takeWhile_append_dropWhile _ _
          calc c :: cs = filenameLit ++ rest := hrest.symm
            _ = filenameLit ++ ((cap0 ++ '"' :: t)
                  ++ List.dropWhile (fun d => decide (d ≠ '\n')) rest) := by rw [hrest2]
            _ = [] ++ filenameLit
                  ++ (cap0 ++ '"' :: (t ++ List.dropWhile (fun d => decide (d ≠ '\n')) rest)) := by
                simp [List.append_assoc]
      | none =>
        rw [hr] at hc
        obtain ⟨h1, h2, pre, post, h3⟩ := ih hc
        exact ⟨h1, h2, c :: pre, post, by rw [h3]; simp [List.append_assoc]⟩
    · rw [if_neg hp] at hc
      obtain ⟨h1, h2, pre, post, h3⟩ := ih hc
      exact ⟨h1, h2, c :: pre, post, by rw [h3]; simp [List.append_assoc]⟩

/-- C8: on a successful response the local filename prefers the
`filename="..."` capture of a present content-disposition header (the
capture really sits between the literal and a closing quote in the header)
and otherwise falls back to the final `/`-segment of the URL; the
progress-display name is the percent-decoded basename, unchanged when at
most 30 characters and otherwise its first 27 characters plus `...`, hence
always at most 30 characters. -/
theorem C8_filename_derivation (path url : List Char) (uq : List Char → List Char) :
    (∀ hdr cap, findFilenameCapture hdr = some cap →
        derive_local_filename path url (some hdr) = pyJoin path cap ∧
        cap ≠ [] ∧ '\n' ∉ cap ∧
        ∃ pre post, hdr = pre ++ filenameLit ++ (cap ++ '"' :: post)) ∧
    derive_local_filename path url none = pyJoin path (lastSegment url) ∧
    (∀ hdr, findFilenameCapture hdr = none →
        derive_local_filename path url (some hdr) = pyJoin path (lastSegment url)) ∧
    (∀ lf, (display_name uq lf).length ≤ 30) ∧
    (∀ lf, (uq (lastSegment lf)).length ≤ 30 → display_name uq lf = uq (lastSegment lf)) ∧
    (∀ lf, 30 < (uq (lastSegment lf)).length →
        display_name uq lf = (uq (lastSegment lf)).take 27 ++ ['.', '.', '.']) := by
  refine ⟨?_, rfl, ?_, ?_, ?_, ?_⟩
  · intro hdr cap hc
    have hne : hdr ≠ [] := by
      intro h0
      rw [h0] at hc
      simp [findFilenameCapture] at hc
    exact ⟨by simp [derive_local_filename, hne, hc], findFilenameCapture_spec hdr cap hc⟩
  · intro hdr hcnone
    by_cases hne : hdr = []
    · rw [hne]
      simp [derive_local_filename]
    · simp [derive_local_filename, hne, hcnone]
  · intro lf
    unfold display_name
    by_cases hl : (uq (lastSegment lf)).length ≤ 30
    · rw [if_pos hl]
      exact hl
    · rw [if_neg hl]
      simp only [List.length_append, List.length_take, List.length_cons, List.length_nil]
      omega
  · intro lf hl
    simp [display_name, hl]
  · intro lf hl
    unfold display_name
    rw [if_neg (by omega)]

theorem C8_filename_derivation_witness :
    findFilenameCapture ("attachment; filename=\"a b.zip\"".toList)
        = some ("a b.zip".toList) ∧
    derive_local_filename ['p'] ("http://h/f.zip".toList)
        (some ("attachment; filename=\"a b.zip\"".toList))
      = pyJoin ['p'] ("a b.zip".toList) ∧
    derive_local_filename ['p'] ("http://h/f.zip".toList) none
      = pyJoin ['p'] (lastSegment ("http://h/f.zip".toList)) ∧
    (display_name (fun l => l) (pyJoin ['p'] ("a b.zip".toList))).length ≤ 30 :=
  ⟨by decide,
    ((C8_filename_derivation ['p'] ("http://h/f.zip".toList) (fun l => l)).1
      ("attachment; filename=\"a b.zip\"".toList) ("a b.zip".toList) (by decide)).1,
    (C8_filename_derivation ['p'] ("http://h/f.zip".toList) (fun l => l)).2.1,
    (C8_filename_derivation ['p'] ("http://h/f.zip".toList) (fun l => l)).2.2.2.1 _⟩

/-! ## Download coordinator: `download_links` -/

/-- The coordinator state: URLs not yet picked up by a worker (submission
order), URLs whose fetch is in flight, and completed `(url, returned value)`
pairs in completion order. -/
structure CoordState where
  pending : List (List Char)
  running : List (List Char)
  done : List (List Char × Option (List Char))
deriving DecidableEq, Repr

/-- Observable events of one `download_links` run. -/
inductive Ev where
  | mkdirs
  | start (u : List Char)
  | finish (u : List Char)
deriving DecidableEq, Repr

/-- One scheduling step of the `ThreadPoolExecutor(max_workers=c)` model: a
queued task starts (in submission order) only while fewer than `c` fetches
are in flight; any running fetch may finish, in nondeterministic completion
order, recording the value returned by `download_link` for its URL
(abstracted as `out`). -/
inductive Step (c : Nat) (out : List Char → Option (List Char)) :
    CoordState → Ev → CoordState → Prop where
  | start (u : List Char) (p r : List (List Char))
      (d : List (List Char × Option (List Char))) (h : r.length < c) :
      Step c out ⟨u :: p, r, d⟩ (Ev.start u) ⟨p, r ++ [u], d⟩
  | finish (u : List Char) (p : List (List Char)) (r1 r2 : List (List Char))
      (d : List (List Char × Option (List Char))) :
      Step c out ⟨p, r1 ++ u :: r2, d⟩ (Ev.finish u) ⟨p, r1 ++ r2, d ++ [(u, out u)]⟩

/-- A sequence of scheduling steps together with its event trace. -/
inductive Exec (c : Nat) (out : List Char → Option (List Char)) :
    CoordState → List Ev → CoordState → Prop where
  | nil (s : CoordState) : Exec c out s [] s
  | cons {s s' s'' : CoordState} {e : Ev} {tr : List Ev} :
      Step c out s e s' → Exec c out s' tr s'' → Exec c out s (e :: tr) s''

/-- A complete `download_links(urls, c, path)` run: the destination
directory is created first (`os.makedirs(path, exist_ok=True)` precedes any
`executor.submit`), then the pool schedules from the initial state until no
task is pending or in flight. -/
def download_links_run (urls : List (List Char)) (c : Nat)
    (out : List Char → Option (List Char)) (tr : List Ev) (final : CoordState) : Prop :=
  ∃ tr', tr = Ev.mkdirs :: tr'
    ∧ Exec c out ⟨urls, [], []⟩ tr' final
    ∧ final.pending = [] ∧ final.running = []

theorem Step_running_le {c : Nat} {out : List Char → Option (List Char)}
    {s s' : CoordState} {e : Ev} (hs : Step c out s e s')
    (h : s.running.length ≤ c) : s'.running.length ≤ c := by
  cases hs with
  | start u p r d hlt =>
    simp only [List.length_append, List.length_singleton]
    omega
  | finish u p r1 r2 d =>
    simp only [List.length_append, List.length_cons] at h ⊢
    omega

theorem Exec_running_le {c : Nat} {out : List Char → Option (List Char)}
    {s s' : CoordState} {tr : List Ev} (he : Exec c out s tr s')
    (h : s.running.length ≤ c) : s'.running.length ≤ c := by
  induction he with
  | nil => exact h
  | cons hs _ ih => exact ih (Step_running_le hs h)

theorem Step_urls_perm {c : Nat} {out : List Char → Option (List Char)}
    {s s' : CoordState} {e : Ev} (hs : Step c out s e s') :
    (s'.pending ++ s'.running ++ s'.done.map Prod.fst).Perm
      (s.pending ++ s.running ++ s.done.map Prod.fst) := by
  cases hs with
  | start u p r d hlt =>
    refine List.Perm.append_right (d.map Prod.fst) ?_
    rw [← List.append_assoc]
    exact List.perm_append_singleton u (p ++ r)
  | finish u p r1 r2 d =>
    have hl : (p ++ (r1 ++ r2)) ++ ((d ++ [(u, out u)]).map Prod.fst)
        = ((p ++ (r1 ++ r2)) ++ d.map Prod.fst) ++ [u] := by
      simp [List.append_assoc]
    rw [hl]
    have h1 : (((p ++ (r1 ++ r2)) ++ d.map Prod.fst) ++ [u]).Perm
        (u :: ((p ++ (r1 ++ r2)) ++ d.map Prod.fst)) :=
      List.perm_append_singleton u _
    have h2 : (p ++ (r1 ++ u :: r2)).Perm (u :: (p ++ (r1 ++ r2))) :=
      (List.Perm.append_left p List.perm_middle).trans List.perm_middle
    have h3 : ((p ++ (r1 ++ u :: r2)) ++ d.map Prod.fst).Perm
        (u :: ((p ++ (r1 ++ r2)) ++ d.map Prod.fst)) :=
      List.Perm.append_right (d.map Prod.fst) h2
    exact h1.trans h3.symm

theorem Exec_urls_perm {c : Nat} {out : List Char → Option (List Char)}
    {s s' : CoordState} {tr : List Ev} (he : Exec c out s tr s') :
    (s'.pending ++ s'.running ++ s'.done.map Prod.fst).Perm
      (s.pending ++ s.running ++ s.done.map Prod.fst) := by
  induction he with
  | nil => exact List.Perm.refl _
  | cons hs _ ih => exact ih.trans (Step_urls_perm hs)

/-- C3: in every complete `download_links` run, exactly one outcome per
submitted URL is produced (the finished URLs are a permutation of the
input, duplicates included), every state reachable by the pool keeps at
most `c` fetches in flight, and the destination directory is created
before any task is dispatched. -/
theorem C3_coordinator (urls : List (List Char)) (c : Nat)
    (out : List Char → Option (List Char)) (tr : List Ev) (final : CoordState)
    (hc : 1 ≤ c) (hrun : download_links_run urls c out tr final) :
    final.done.length = urls.length ∧
    (final.done.map Prod.fst).Perm urls ∧
    (∀ tr' s', Exec c out ⟨urls, [], []⟩ tr' s' → s'.running.length ≤ c) ∧
    (∀ i u, tr.get? i = some (Ev.start u) → ∃ j, j < i ∧ tr.get? j = some Ev.mkdirs) := by
  obtain ⟨tr0, htr, hexec, hpend, hrund⟩ := hrun
  have hperm0 := Exec_urls_perm hexec
  rw [hpend, hrund] at hperm0
  simp only [List.nil_append] at hperm0
  have hperm : (final.done.map Prod.fst).Perm urls := by
    simpa using hperm0
  refine ⟨?_, hperm, ?_, ?_⟩
  · have := hperm.length_eq
    simpa using this
  · intro tr' s' he
    exact Exec_running_le he (by simp)
  · intro i u hi
    refine ⟨0, ?_, ?_⟩
    · rcases i with _ | i
      · rw [htr] at hi
        simp at hi
      · omega
    · rw [htr]
      rfl

theorem C3_coordinator_witness :
    (1 ≤ 1) ∧
    ((⟨[], [], [(['u'], none)]⟩ : CoordState).done.length = [['u']].length ∧
    ((⟨[], [], [(['u'], none)]⟩ : CoordState).done.map Prod.fst).Perm [['u']] ∧
    (∀ tr' s', Exec 1 (fun _ => none) ⟨[['u']], [], []⟩ tr' s' → s'.running.length ≤ 1) ∧
    (∀ i u, [Ev.mkdirs, Ev.start ['u'], Ev.finish ['u']].get? i = some (Ev.start u) →
        ∃ j, j < i ∧ [Ev.mkdirs, Ev.start ['u'], Ev.finish ['u']].get? j = some Ev.mkdirs)) :=
  ⟨by decide,
    C3_coordinator [['u']] 1 (fun _ => none)
      [Ev.mkdirs, Ev.start ['u'], Ev.finish ['u']] ⟨[], [], [(['u'], none)]⟩
      (by decide)
      ⟨[Ev.start ['u'], Ev.finish ['u']], rfl,
        Exec.cons (Step.start ['u'] [] [] [] (by decide))
          (Exec.cons (Step.finish ['u'] [] [] [] []) (Exec.nil _)),
        rfl, rfl⟩⟩

end MyrientDL
